import Mathlib

/-!
Verification of the intensity-fluctuation-correction subsystem of iVenus/iMars3D
(`imars3d/backend/corrections/intensity_fluctuation_correction.py`).

Images are embedded as lists of rows of rationals; the external Canny edge
detector is an opaque function producing a boolean mask of the same shape as
the image (its contract).  Floating-point degeneracies (division by a zero
factor, mean of an empty collection) are modelled explicitly with an `FVal`
type carrying `inf`/`nan` values, mirroring IEEE semantics of numpy division.
-/

namespace IFC

/-- Result of a floating-point computation: a finite rational, positive or
negative infinity, or NaN.  Models the values numpy produces (it warns but
does not raise on division by zero or on the mean of an empty array). -/
inductive FVal where
  | fin (q : ℚ)
  | pinf
  | ninf
  | nan
deriving DecidableEq, Repr

/-- A 2D image: a list of rows, each a list of rational pixel intensities. -/
abbrev Image := List (List ℚ)

/-- A boolean edge mask, same layout as an image. -/
abbrev Mask := List (List Bool)

/-- Width (`shape[1]`) of a 2D array embedded as a list of rows. -/
def width (rows : List (List α)) : ℕ :=
  (rows.head?.map List.length).getD 0

/-- Shape of a 2D array: the list of its row lengths (refines numpy's
`(H, W)`; equal shapes in this sense imply equal `H` and, for well-formed
rectangular arrays, equal `W`). -/
def shape2 (v : List (List α)) : List ℕ := v.map List.length

/-- Shape of a 3D array: per-frame 2D shapes. -/
def shape3 (v : List (List (List α))) : List (List ℕ) := v.map shape2

/-- Indices of the edge pixels of one mask row: models `np.where(isedge)[0]`
(for `isedge = row > 0` on a boolean row, i.e. the row itself). -/
def trueIdxs (row : List Bool) : List ℕ :=
  (List.range row.length).filter (fun j => row.getD j false)

/-- Per-row bound selection (lines 157-167 of the source): if the row has at
least one edge pixel, the bounds are the first and last edge-pixel columns
(`w[0], w[-1]`); otherwise both stay at the middle column. -/
def startStopRow (middle : ℕ) (row : List Bool) : ℕ × ℕ :=
  match trueIdxs row with
  | [] => (middle, middle)
  | j :: js => (j, List.getLastD js j)

/-- Middle column `(edge.shape[1] - 1) // 2` of the edge mask. -/
def middle_col (edge : Mask) : ℕ := (width edge - 1) / 2

/-- The per-row `(start_cols[i], stop_cols[i])` pairs before the shrink step. -/
def rawBounds (edge : Mask) : List (ℕ × ℕ) :=
  edge.map (startStopRow (middle_col edge))

/-- Final bounds after the shrink step of lines 177-178:
`start_cols = start_cols // 2` and `stop_cols = (stop_cols + n_cols) // 2`,
where `n_cols` is the image width. -/
def bounds (image : Image) (edge : Mask) : List (ℕ × ℕ) :=
  (rawBounds edge).map (fun p => (p.1 / 2, (p.2 + width image) / 2))

/-- Left background of each row: `row[: start_cols[i]]` (line 198). -/
def rowLeftAir (image : Image) (edge : Mask) : List (List ℚ) :=
  (image.zip (bounds image edge)).map (fun rb => rb.1.take rb.2.1)

/-- Right background of each row: `row[stop_cols[i] :]` (line 199). -/
def rowRightAir (image : Image) (edge : Mask) : List (List ℚ) :=
  (image.zip (bounds image edge)).map (fun rb => rb.1.drop rb.2.2)

/-- The gathered air-pixel collection `concatenate((left, right))`
(lines 195-200): all rows' left parts followed by all rows' right parts. -/
def airPixels (image : Image) (edge : Mask) : List ℚ :=
  (rowLeftAir image edge).flatten ++ (rowRightAir image edge).flatten

/-- Mean of a float array as numpy computes it: NaN for an empty array
(numpy emits a RuntimeWarning but returns NaN), else the arithmetic mean. -/
def npMean (xs : List ℚ) : FVal :=
  if xs = [] then .nan else .fin (xs.sum / xs.length)

/-- Division of a finite pixel value by the factor, with IEEE semantics:
division by a zero factor yields `±inf` (or NaN for `0/0`), by NaN yields
NaN, by `±inf` yields 0; numpy warns but never raises here. -/
def divByFactor (x : ℚ) (f : FVal) : FVal :=
  match f with
  | .fin q => if q = 0 then (if 0 < x then .pinf else if x < 0 then .ninf else .nan)
              else .fin (x / q)
  | .pinf => .fin 0
  | .ninf => .fin 0
  | .nan => .nan

/-- Application of `image / factor` for a given edge mask (lines 200-202). -/
def ifcApply (image : Image) (edge : Mask) : List (List FVal) :=
  let factor := npMean (airPixels image edge)
  image.map (fun row => row.map (fun x => divByFactor x factor))

/-- The per-image correction `intensity_fluctuation_correction_skimage`
(lines 113-202), parameterized by the external edge detector
`skimage.feature.canny` (an opaque collaborator returning a boolean mask of
the image's shape). -/
def intensity_fluctuation_correction_skimage
    (canny : Image → ℤ → Mask) (image : Image) (sigma : ℤ) : List (List FVal) :=
  ifcApply image (canny image sigma)

/-- Stacks handed to the dispatcher: numpy arrays of rank 1 to 4 (the ranks
the spec's policy-boundary scenario exercises).  Rank 2 and 3 are the valid
inputs; rank 1 and 4 exist to express the rejection of invalid ranks. -/
inductive CTArray where
  | d1 (v : List ℚ)
  | d2 (v : Image)
  | d3 (v : List Image)
  | d4 (v : List (List Image))
deriving DecidableEq, Repr

/-- Rank (`ct.ndim`) of a stack. -/
def CTArray.ndim : CTArray → ℕ
  | .d1 _ => 1
  | .d2 _ => 2
  | .d3 _ => 3
  | .d4 _ => 4

/-- Length of the first axis (`ct.shape[0]`), the axis `process_map`
iterates over. -/
def CTArray.axis0 : CTArray → ℕ
  | .d1 v => v.length
  | .d2 v => v.length
  | .d3 v => v.length
  | .d4 v => v.length

/-- Observable resource events of one dispatcher call, in order. -/
inductive Event where
  | validationRaise
  | allocShm
  | copyToShm
  | dispatchWorkers
  | releaseShm
  | delegateTomopy (air : ℕ) (ncore : ℕ)
deriving DecidableEq, Repr

/-- Modelled from the spec: `calculate_chunksize` lives in
`imars3d.backend.util.functions`, which is not among the provided sources.
The spec only requires a chunk size of at least 1, computed from the frame
count and worker count so that the number of chunks does not grossly exceed
the number of workers; all theorems below hold for every chunk size. -/
def calculate_chunksize (nFrames maxWorkers : ℕ) : ℕ :=
  max 1 (nFrames / (maxWorkers * 4))

/-- Split a list into consecutive chunks of size `c` (at least one element
per chunk, so a chunk size of 0 degrades to singleton chunks). -/
def chunkList (c : ℕ) : List α → List (List α)
  | [] => []
  | x :: xs => (x :: xs.take (c - 1)) :: chunkList c (xs.drop (c - 1))
termination_by l => l.length
decreasing_by simp only [List.length_drop, List.length_cons]; omega

/-- Sequence fallible per-item workers over a list, failing on the first
failure (models exception propagation out of a pool of tasks: any raising
task fails the aggregate, and partial results are discarded). -/
def mapWorkers (w : α → Except String β) : List α → Except String (List β)
  | [] => .ok []
  | x :: xs => (w x).bind (fun y => (mapWorkers w xs).map (fun ys => y :: ys))

/-- The external `tqdm.contrib.concurrent.process_map`: distributes the
items to workers in chunks of `chunksize` and returns the results in input
order (its documented contract); a raising task propagates. -/
def process_map (w : α → Except String β) (chunksize : ℕ) (items : List α) :
    Except String (List β) :=
  (mapWorkers (mapWorkers w) (chunkList chunksize items)).map List.flatten

/-- Trace and outcome of one dispatcher call. -/
structure IFCRun (β : Type) where
  trace : List Event
  result : Except String β
deriving Repr

/-- Scoped shared-memory block (`with SharedMemoryManager() as smm`): the
segment is allocated, the stack copied in, workers dispatched, and the
segment released when the block exits — whether the body's outcome is a
success or a raised error. -/
def withShm (body : Except String β) : IFCRun β :=
  { trace := [.allocShm, .copyToShm, .dispatchWorkers, .releaseShm],
    result := body }

/-- The parallel applier over the first axis of the shared-memory copy:
shared-memory scope around a chunked ordered `process_map`. -/
def parallel_stack_apply (w : α → Except String β) (chunksize : ℕ)
    (items : List α) : IFCRun (List β) :=
  withShm (process_map w chunksize items)

/-- Outputs of the dispatcher: the delegate's array (rank preserved by the
external routine's contract) or `np.array(rst)` stacking the per-item
results of the adaptive path (FVal-valued: float-promoted). -/
inductive CTOut where
  | delegated (a : CTArray)
  | stack2 (v : List (List FVal))
  | stack3 (v : List (List (List FVal)))
deriving DecidableEq, Repr

/-- Worker used by the adaptive path on a rank-2 input: iterating a 2D array
yields its 1D rows, and the external `skimage.feature.canny` raises on any
input that is not 2-dimensional (its documented behavior), so every such
task fails. -/
def rowWorker1D : List ℚ → Except String (List FVal) :=
  fun _ => .error "canny: the input image must be 2-dimensional"

/-- The dispatcher `_intensity_fluctuation_correction` (lines 74-110):
validates the rank, then routes a negative `air_pixels` to the adaptive
shared-memory path and a non-negative one to the external
`tomopy.normalize_bg(ct, air=air_pixels, ncore=max_workers)` delegate.
External collaborators are parameters: `normalize_bg` and `canny`. -/
def _intensity_fluctuation_correction
    (normalize_bg : CTArray → ℕ → ℕ → CTArray)
    (canny : Image → ℤ → Mask)
    (ct : CTArray) (air_pixels : ℤ) (sigma : ℤ) (max_workers : ℕ) :
    IFCRun CTOut :=
  if ct.ndim ≠ 2 ∧ ct.ndim ≠ 3 then
    { trace := [.validationRaise],
      result := .error "The image/radiograph stack must be 2D or 3D." }
  else if air_pixels < 0 then
    let c := calculate_chunksize ct.axis0 max_workers
    match ct with
    | .d2 img =>
        let r := parallel_stack_apply rowWorker1D c img
        { trace := r.trace, result := r.result.map CTOut.stack2 }
    | .d3 frames =>
        let w : Image → Except String (List (List FVal)) :=
          fun im => .ok (intensity_fluctuation_correction_skimage canny im sigma)
        let r := parallel_stack_apply w c frames
        { trace := r.trace, result := r.result.map CTOut.stack3 }
    | _ =>
        { trace := [], result := .error "unreachable: rank checked above" }
  else
    { trace := [.delegateTomopy air_pixels.toNat max_workers],
      result := .ok (.delegated (normalize_bg ct air_pixels.toNat max_workers)) }

/-- Shape descriptor of a dispatcher input, refining numpy's `shape`. -/
inductive ShapeDesc where
  | s1 (n : ℕ)
  | s2 (s : List ℕ)
  | s3 (s : List (List ℕ))
  | s4 (s : List (List (List ℕ)))
deriving DecidableEq, Repr

/-- Shape of a stack. -/
def CTArray.shapeDesc : CTArray → ShapeDesc
  | .d1 v => .s1 v.length
  | .d2 v => .s2 (shape2 v)
  | .d3 v => .s3 (shape3 v)
  | .d4 v => .s4 (v.map shape3)

/-- Shape of a dispatcher output. -/
def CTOut.shapeDesc : CTOut → ShapeDesc
  | .delegated a => a.shapeDesc
  | .stack2 v => .s2 (shape2 v)
  | .stack3 v => .s3 (shape3 v)

/-- Memory state visible to the adaptive path: the caller's frames and the
shared-memory segment's contents. -/
structure MemState where
  callerFrames : List Image
  shm : List Image
deriving Repr

/-- The adaptive path as an explicit state transformer over `MemState`,
modelling each numpy operation with its write target: allocating the
segment zero-fills `shm`, `np.copyto(shm_arrays, ct)` writes `shm` reading
the caller's array, each worker reads one `shm` frame and allocates a fresh
quotient array, and the manager's exit empties `shm`; no step writes the
caller's frames. -/
def adaptive_stateful (w : Image → Except String (List (List FVal)))
    (s₀ : MemState) : Except String (List (List (List FVal))) × MemState :=
  let s₁ : MemState :=
    { s₀ with shm := s₀.callerFrames.map (fun f => f.map (fun r => r.map (fun _ => 0))) }
  let s₂ : MemState := { s₁ with shm := s₀.callerFrames }
  let rst := mapWorkers w s₂.shm
  let s₃ : MemState := { s₂ with shm := [] }
  (rst, s₃)

/-! ### Concrete fixtures used by witnesses and counterexamples -/

/-- A 2 x 4 test image. -/
def cImage : Image := [[1, 2, 3, 4], [5, 6, 7, 8]]

/-- An edge mask for `cImage`: one edge pixel in row 0, none in row 1. -/
def cMask : Mask := [[false, true, false, false], [false, false, false, false]]

/-- A 2 x 2 all-zero image (an all-zero background). -/
def zeroImage2 : Image := [[0, 0], [0, 0]]

/-- An edge detector finding no edges anywhere: the mask is all-false, of the
image's shape.  This is what Canny produces on a constant (e.g. all-zero)
image, where no intensity gradient exists. -/
def noEdgeCanny : Image → ℤ → Mask :=
  fun img _ => img.map (fun r => r.map (fun _ => false))

/-- A shape-preserving stand-in for the external `tomopy.normalize_bg`. -/
def idNormalizeBg : CTArray → ℕ → ℕ → CTArray := fun a _ _ => a

/-- A worker that raises on item 0 and succeeds elsewhere. -/
def failWorker : ℕ → Except String ℕ :=
  fun n => if n = 0 then .error "task failed" else .ok n

/-- A 1 x 10 constant image. -/
def cexImage10 : Image := [[1, 1, 1, 1, 1, 1, 1, 1, 1, 1]]

/-- An all-false (edge-free) mask of the shape of `cexImage10`. -/
def cexMaskNoEdge : Mask :=
  [[false, false, false, false, false, false, false, false, false, false]]

/-! ### Helper lemmas -/

theorem getLastD_mem_cons (js : List ℕ) (j : ℕ) : List.getLastD js j ∈ j :: js := by
  induction js generalizing j with
  | nil => simp
  | cons k ks ih =>
      rw [List.getLastD_cons]
      exact List.mem_cons_of_mem j (ih k)

theorem trueIdxs_pairwise (row : List Bool) :
    List.Pairwise (· < ·) (trueIdxs row) :=
  (List.pairwise_lt_range row.length).sublist (List.filter_sublist _)

theorem trueIdxs_lt_length (row : List Bool) :
    ∀ j ∈ trueIdxs row, j < row.length := by
  intro j hj
  exact List.mem_range.mp (List.mem_filter.mp hj).1

theorem trueIdxs_eq_nil_of_all_false (row : List Bool)
    (h : ∀ b ∈ row, b = false) : trueIdxs row = [] := by
  refine List.filter_eq_nil_iff.mpr ?_
  intro j hj
  have hlt : j < row.length := List.mem_range.mp hj
  have : row.getD j false = row[j] := by
    simp [List.getD_eq_getElem?_getD, List.getElem?_eq_getElem hlt]
  rw [this, h row[j] (List.getElem_mem hlt)]
  simp

theorem startStopRow_of_nil (middle : ℕ) (row : List Bool)
    (h : trueIdxs row = []) : startStopRow middle row = (middle, middle) := by
  simp [startStopRow, h]

theorem startStopRow_of_cons (middle : ℕ) (row : List Bool) (j : ℕ) (js : List ℕ)
    (h : trueIdxs row = j :: js) :
    startStopRow middle row = (j, List.getLastD js j) := by
  simp [startStopRow, h]

theorem startStopRow_fst_le_snd (middle : ℕ) (row : List Bool) :
    (startStopRow middle row).1 ≤ (startStopRow middle row).2 := by
  cases h : trueIdxs row with
  | nil => simp [startStopRow_of_nil middle row h]
  | cons j js =>
      rw [startStopRow_of_cons middle row j js h]
      have hpw := trueIdxs_pairwise row
      rw [h] at hpw
      rcases List.mem_cons.mp (getLastD_mem_cons js j) with heq | hmem
      · exact le_of_eq heq.symm
      · exact le_of_lt ((List.pairwise_cons.mp hpw).1 _ hmem)

theorem startStopRow_snd_cases (middle : ℕ) (row : List Bool) :
    (startStopRow middle row).2 = middle ∨ (startStopRow middle row).2 < row.length := by
  cases h : trueIdxs row with
  | nil => left; simp [startStopRow_of_nil middle row h]
  | cons j js =>
      right
      rw [startStopRow_of_cons middle row j js h]
      refine trueIdxs_lt_length row _ ?_
      rw [h]
      exact getLastD_mem_cons js j

theorem width_eq_of_mask (image : Image) (edge : Mask) (r : List Bool)
    (hr : r ∈ edge) (hmask : ∀ r ∈ edge, r.length = width image) :
    width edge = width image := by
  cases edge with
  | nil => cases hr
  | cons e es =>
      have : width (e :: es) = e.length := by simp [width]
      rw [this]
      exact hmask e (List.mem_cons_self e es)

theorem chunkList_flatten (c : ℕ) : ∀ xs : List α, (chunkList c xs).flatten = xs
  | [] => by simp [chunkList]
  | x :: xs => by
      rw [chunkList]
      simp only [List.flatten_cons]
      rw [chunkList_flatten c (xs.drop (c - 1))]
      rw [List.cons_append, List.take_append_drop]
termination_by xs => xs.length
decreasing_by simp only [List.length_drop, List.length_cons]; omega

theorem mapWorkers_ok_map (f : α → β) (xs : List α) :
    mapWorkers (fun a => Except.ok (f a)) xs = Except.ok (xs.map f) := by
  induction xs with
  | nil => rfl
  | cons x xs ih => simp [mapWorkers, ih, Except.bind, Except.map]

theorem mapWorkers_const_error_ok (msg : String) (xs : List α) (v : List β)
    (h : mapWorkers (fun _ : α => (Except.error msg : Except String β)) xs
           = Except.ok v) : xs = [] ∧ v = [] := by
  cases xs with
  | nil => simp [mapWorkers] at h; simp [h]
  | cons x xs => simp [mapWorkers, Except.bind] at h

theorem mapWorkers_cons (w : α → Except String β) (x : α) (xs : List α) :
    mapWorkers w (x :: xs)
      = (w x).bind (fun y => (mapWorkers w xs).map (fun ys => y :: ys)) := rfl

theorem mapWorkers_append (w : α → Except String β) (a b : List α) :
    mapWorkers w (a ++ b) =
      (mapWorkers w a).bind (fun xs => (mapWorkers w b).map (fun ys => xs ++ ys)) := by
  induction a with
  | nil =>
      cases hb : mapWorkers w b <;>
        simp [mapWorkers, hb, Except.bind, Except.map]
  | cons x xs ih =>
      cases hwx : w x with
      | error e => simp [mapWorkers, hwx, Except.bind]
      | ok y =>
          rw [List.cons_append, mapWorkers_cons, mapWorkers_cons, hwx, ih]
          cases hxs : mapWorkers w xs with
          | error e => simp [Except.map, Except.bind]
          | ok ys =>
              cases hb : mapWorkers w b <;> simp [Except.map, Except.bind]

theorem process_map_eq_mapWorkers (w : α → Except String β) (c : ℕ) :
    ∀ items : List α, process_map w c items = mapWorkers w items
  | [] => by simp [process_map, chunkList, mapWorkers, Except.map]
  | x :: xs => by
      have ih := process_map_eq_mapWorkers w c (xs.drop (c - 1))
      rw [process_map] at ih
      have hsplit : x :: xs = (x :: xs.take (c - 1)) ++ xs.drop (c - 1) := by
        rw [List.cons_append, List.take_append_drop]
      rw [process_map, chunkList]
      conv_rhs => rw [hsplit]
      rw [mapWorkers_append, mapWorkers_cons]
      cases hch : mapWorkers w (x :: xs.take (c - 1)) with
      | error e => simp [Except.bind, Except.map]
      | ok ys =>
          cases hin : mapWorkers (mapWorkers w) (chunkList c (xs.drop (c - 1))) with
          | error e =>
              rw [hin] at ih
              simp only [Except.map] at ih
              simp [Except.bind, Except.map, ← ih]
          | ok ls =>
              rw [hin] at ih
              simp only [Except.map] at ih
              simp [Except.bind, Except.map, ← ih, List.flatten_cons]
termination_by items => items.length
decreasing_by simp only [List.length_drop, List.length_cons]; omega

theorem mapWorkers_error_of_mem (w : α → Except String β) (xs : List α) (a : α)
    (ha : a ∈ xs) (hfail : ∀ b, w a ≠ Except.ok b) :
    ∃ msg, mapWorkers w xs = Except.error msg := by
  induction xs with
  | nil => cases ha
  | cons x xs ih =>
      rcases List.mem_cons.mp ha with heq | hmem
      · cases hwa : w x with
        | error e => exact ⟨e, by simp [mapWorkers, hwa, Except.bind]⟩
        | ok b => exact absurd (heq ▸ hwa) (hfail b)
      · cases hwx : w x with
        | error e => exact ⟨e, by simp [mapWorkers, hwx, Except.bind]⟩
        | ok y =>
            obtain ⟨msg, hmsg⟩ := ih hmem
            exact ⟨msg, by simp [mapWorkers, hwx, hmsg, Except.bind, Except.map]⟩

theorem shape2_ifcApply (image : Image) (edge : Mask) :
    shape2 (ifcApply image edge) = shape2 image := by
  simp [ifcApply, shape2, List.map_map, Function.comp]

theorem zip_getElem?_eq (l₁ : List α) (l₂ : List β) (i : ℕ) (a : α) (b : β)
    (h₁ : l₁[i]? = some a) (h₂ : l₂[i]? = some b) :
    (l₁.zip l₂)[i]? = some (a, b) :=
  List.getElem?_zip_eq_some.mpr ⟨h₁, h₂⟩

/-! ### Claim theorems -/

/-- Claim C4: for every row whose edge mask contains at least one edge pixel,
with first edge pixel at column `s` and last at column `e`, in a `W`-column
image, the final bounds are exactly `s / 2` and `(e + W) / 2`, and the row
contributes exactly the pixels left of `s / 2` and from `(e + W) / 2` on. -/
theorem C4_edge_row_bounds (image : Image) (edge : Mask) (i : ℕ)
    (row : List ℚ) (mrow : List Bool) (s e : ℕ) (rest : List ℕ)
    (hrow : image[i]? = some row) (hmrow : edge[i]? = some mrow)
    (hs : trueIdxs mrow = s :: rest) (he : e = List.getLastD rest s) :
    (bounds image edge)[i]? = some (s / 2, (e + width image) / 2)
    ∧ (rowLeftAir image edge)[i]? = some (row.take (s / 2))
    ∧ (rowRightAir image edge)[i]? = some (row.drop ((e + width image) / 2)) := by
  subst he
  have hb : (bounds image edge)[i]?
      = some (s / 2, (List.getLastD rest s + width image) / 2) := by
    simp [bounds, rawBounds, List.getElem?_map, hmrow,
      startStopRow_of_cons _ mrow s rest hs]
  refine ⟨hb, ?_, ?_⟩
  · simp [rowLeftAir, List.getElem?_map,
      zip_getElem?_eq image (bounds image edge) i row _ hrow hb]
  · simp [rowRightAir, List.getElem?_map,
      zip_getElem?_eq image (bounds image edge) i row _ hrow hb]

theorem C4_edge_row_bounds_witness :
    (bounds cImage cMask)[0]? = some (1 / 2, (1 + width cImage) / 2)
    ∧ (rowLeftAir cImage cMask)[0]? = some ([1, 2, 3, 4].take (1 / 2))
    ∧ (rowRightAir cImage cMask)[0]?
        = some ([1, 2, 3, 4].drop ((1 + width cImage) / 2)) :=
  C4_edge_row_bounds cImage cMask 0 [1, 2, 3, 4] [false, true, false, false]
    1 1 [] (by decide) (by decide) (by decide) (by decide)

/-- Claim C5: bound invariant — for every row the shrunken bounds satisfy
`0 ≤ start ≤ stop ≤ W`, for any edge-mask content, given only that the mask's
rows have the image's width (the edge detector's shape contract). -/
theorem C5_bound_invariant (image : Image) (edge : Mask)
    (hmask : ∀ r ∈ edge, r.length = width image) :
    ∀ (i : ℕ) (p : ℕ × ℕ), (bounds image edge)[i]? = some p →
      0 ≤ p.1 ∧ p.1 ≤ p.2 ∧ p.2 ≤ width image := by
  intro i p hp
  have hpmem : p ∈ bounds image edge := List.getElem?_mem hp
  simp only [bounds] at hpmem
  obtain ⟨q, hq, rfl⟩ := List.mem_map.mp hpmem
  simp only [rawBounds] at hq
  obtain ⟨r, hr, rfl⟩ := List.mem_map.mp hq
  have h1 := startStopRow_fst_le_snd (middle_col edge) r
  have h2 : (startStopRow (middle_col edge) r).2 ≤ width image := by
    rcases startStopRow_snd_cases (middle_col edge) r with he | hl
    · rw [he, middle_col, width_eq_of_mask image edge r hr hmask]
      omega
    · rw [hmask r hr] at hl
      omega
  exact ⟨Nat.zero_le _, by omega, by omega⟩

theorem C5_bound_invariant_witness :
    0 ≤ ((1 / 2, (1 + width cImage) / 2) : ℕ × ℕ).1
    ∧ ((1 / 2, (1 + width cImage) / 2) : ℕ × ℕ).1
        ≤ ((1 / 2, (1 + width cImage) / 2) : ℕ × ℕ).2
    ∧ ((1 / 2, (1 + width cImage) / 2) : ℕ × ℕ).2 ≤ width cImage :=
  C5_bound_invariant cImage cMask (by decide) 0 (1 / 2, (1 + width cImage) / 2)
    (by decide)

/-- Claim C2 (counterexample): an entirely edge-free row does NOT contribute
its full width of pixels.  On a 1 x 10 constant image with an all-false edge
mask, the air-pixel collection holds 5 pixels, not the full 10: the shrink
step also moves the middle-column fallback bounds, leaving only
`row[: 2] ++ row[7 :]`. -/
theorem C2_counterexample :
    (∀ r ∈ cexMaskNoEdge, ∀ b ∈ r, b = false)
    ∧ width cexImage10 = 10
    ∧ (airPixels cexImage10 cexMaskNoEdge).length = 5
    ∧ (airPixels cexImage10 cexMaskNoEdge).length ≠ width cexImage10 := by
  decide

/-- Claim C2 (amended): for a row without edge pixels the detector leaves
both bounds at the middle column of the mask before the shrink step; after
the shrink step the bounds are `middle / 2` and `(middle + W) / 2`, so the
row contributes `row[: middle / 2] ++ row[middle / 2 + W - (middle+W)/2 :]`
— about half its width, not its full width; and the detector is total on an
image with no edges in any row (it raises nothing by itself). -/
theorem C2_no_edge_row_amended (image : Image) (edge : Mask) (i : ℕ)
    (row : List ℚ) (mrow : List Bool)
    (hrow : image[i]? = some row) (hmrow : edge[i]? = some mrow)
    (hall : ∀ b ∈ mrow, b = false) :
    (rawBounds edge)[i]? = some (middle_col edge, middle_col edge)
    ∧ (bounds image edge)[i]?
        = some (middle_col edge / 2, (middle_col edge + width image) / 2)
    ∧ (rowLeftAir image edge)[i]? = some (row.take (middle_col edge / 2))
    ∧ (rowRightAir image edge)[i]?
        = some (row.drop ((middle_col edge + width image) / 2)) := by
  have hnil := trueIdxs_eq_nil_of_all_false mrow hall
  have hraw : (rawBounds edge)[i]? = some (middle_col edge, middle_col edge) := by
    simp [rawBounds, List.getElem?_map, hmrow, startStopRow_of_nil _ mrow hnil]
  have hb : (bounds image edge)[i]?
      = some (middle_col edge / 2, (middle_col edge + width image) / 2) := by
    simp [bounds, List.getElem?_map, hraw]
  refine ⟨hraw, hb, ?_, ?_⟩
  · simp [rowLeftAir, List.getElem?_map,
      zip_getElem?_eq image (bounds image edge) i row _ hrow hb]
  · simp [rowRightAir, List.getElem?_map,
      zip_getElem?_eq image (bounds image edge) i row _ hrow hb]

theorem C2_no_edge_row_amended_witness :
    (rawBounds cexMaskNoEdge)[0]? = some (middle_col cexMaskNoEdge, middle_col cexMaskNoEdge)
    ∧ (bounds cexImage10 cexMaskNoEdge)[0]?
        = some (middle_col cexMaskNoEdge / 2,
                (middle_col cexMaskNoEdge + width cexImage10) / 2)
    ∧ (rowLeftAir cexImage10 cexMaskNoEdge)[0]?
        = some ([1, 1, 1, 1, 1, 1, 1, 1, 1, 1].take (middle_col cexMaskNoEdge / 2))
    ∧ (rowRightAir cexImage10 cexMaskNoEdge)[0]?
        = some ([1, 1, 1, 1, 1, 1, 1, 1, 1, 1].drop
                ((middle_col cexMaskNoEdge + width cexImage10) / 2)) :=
  C2_no_edge_row_amended cexImage10 cexMaskNoEdge 0
    [1, 1, 1, 1, 1, 1, 1, 1, 1, 1]
    [false, false, false, false, false, false, false, false, false, false]
    (by decide) (by decide) (by decide)

/-- Claim C9: for a 2D image with at least one column (and the edge mask of
the image's shape, as the edge detector guarantees), every row's shrunken
stop bound is at most `W - 1`, so every row contributes at least its last
pixel: the air-pixel collection holds at least `H` elements, is non-empty
once the image has a row, and the factor is then a finite mean — the
empty-collection degeneracy is unreachable; only a zero mean is. -/
theorem C9_collection_never_empty (image : Image) (edge : Mask)
    (hW : 1 ≤ width image)
    (hrect : ∀ r ∈ image, r.length = width image)
    (hshape : shape2 edge = shape2 image) :
    (∀ p ∈ bounds image edge, p.2 ≤ width image - 1)
    ∧ image.length ≤ (airPixels image edge).length
    ∧ (1 ≤ image.length →
        airPixels image edge ≠ []
        ∧ ∃ q, npMean (airPixels image edge) = FVal.fin q) := by
  have hlen : edge.length = image.length := by
    have h := congrArg List.length hshape
    simpa [shape2] using h
  have hmask : ∀ r ∈ edge, r.length = width image := by
    intro r hr
    obtain ⟨i, hi, rfl⟩ := List.mem_iff_getElem.mp hr
    have hi' : i < image.length := by omega
    have h1 : (shape2 edge)[i]? = (shape2 image)[i]? := by rw [hshape]
    rw [shape2, shape2, List.getElem?_map, List.getElem?_map,
      List.getElem?_eq_getElem hi, List.getElem?_eq_getElem hi'] at h1
    simp only [Option.map_some'] at h1
    have h2 : edge[i].length = image[i].length := Option.some.inj h1
    rw [h2]
    exact hrect image[i] (List.getElem_mem hi')
  have hstop : ∀ p ∈ bounds image edge, p.2 ≤ width image - 1 := by
    intro p hp
    simp only [bounds] at hp
    obtain ⟨q, hq, rfl⟩ := List.mem_map.mp hp
    simp only [rawBounds] at hq
    obtain ⟨r, hr, rfl⟩ := List.mem_map.mp hq
    have h2 : (startStopRow (middle_col edge) r).2 ≤ width image - 1 := by
      rcases startStopRow_snd_cases (middle_col edge) r with he | hl
      · rw [he, middle_col, width_eq_of_mask image edge r hr hmask]
        omega
      · rw [hmask r hr] at hl
        omega
    simp only
    omega
  have hblen : (bounds image edge).length = image.length := by
    simp [bounds, rawBounds, hlen]
  have hright : image.length ≤ (rowRightAir image edge).flatten.length := by
    rw [List.length_flatten]
    have hmaplen : ((rowRightAir image edge).map List.length).length = image.length := by
      simp [rowRightAir, List.length_zip, hblen]
    have hone : ∀ n ∈ (rowRightAir image edge).map List.length, 1 ≤ n := by
      intro n hn
      obtain ⟨l, hl, rfl⟩ := List.mem_map.mp hn
      simp only [rowRightAir] at hl
      obtain ⟨rb, hrb, rfl⟩ := List.mem_map.mp hl
      have hr1 : rb.1 ∈ image := (List.of_mem_zip hrb).1
      have hr2 : rb.2 ∈ bounds image edge := (List.of_mem_zip hrb).2
      have h1 : rb.1.length = width image := hrect rb.1 hr1
      have h2 : rb.2.2 ≤ width image - 1 := hstop rb.2 hr2
      rw [List.length_drop, h1]
      omega
    calc image.length = ((rowRightAir image edge).map List.length).length := hmaplen.symm
      _ ≤ ((rowRightAir image edge).map List.length).sum :=
          List.length_le_sum_of_one_le _ hone
  have htot : image.length ≤ (airPixels image edge).length := by
    rw [airPixels, List.length_append]
    omega
  refine ⟨hstop, htot, fun hH => ?_⟩
  have hne : airPixels image edge ≠ [] := by
    refine List.ne_nil_of_length_pos (Nat.lt_of_lt_of_le hH htot)
  refine ⟨hne, ⟨(airPixels image edge).sum / ((airPixels image edge).length : ℚ), ?_⟩⟩
  simp [npMean, hne]

theorem C9_collection_never_empty_witness :
    (∀ p ∈ bounds cImage cMask, p.2 ≤ width cImage - 1)
    ∧ cImage.length ≤ (airPixels cImage cMask).length
    ∧ (1 ≤ cImage.length →
        airPixels cImage cMask ≠ []
        ∧ ∃ q, npMean (airPixels cImage cMask) = FVal.fin q) :=
  C9_collection_never_empty cImage cMask (by decide) (by decide) (by decide)

/-- Claim C1 (failing input): on a 2 x 2 all-zero image, where the edge
detector finds no edges, the gathered air pixels are all zero, so the factor
is the finite value 0 — and the correction returns `image / 0`, an all-NaN
array, instead of failing with a numerical-degeneracy error: the function
has no error path at all. -/
theorem C1_zero_factor_returns_nan :
    npMean (airPixels zeroImage2 (noEdgeCanny zeroImage2 3)) = FVal.fin 0
    ∧ intensity_fluctuation_correction_skimage noEdgeCanny zeroImage2 3
        = [[FVal.nan, FVal.nan], [FVal.nan, FVal.nan]] := by
  have h1 : airPixels zeroImage2 (noEdgeCanny zeroImage2 3) = [0, 0] := by decide
  have h2 : npMean (airPixels zeroImage2 (noEdgeCanny zeroImage2 3)) = FVal.fin 0 := by
    rw [h1]
    simp [npMean]
  refine ⟨h2, ?_⟩
  simp only [intensity_fluctuation_correction_skimage, ifcApply, h2]
  simp [zeroImage2, divByFactor]

/-- Claim C10: the adaptive path, modelled as a state transformer in which
each numpy call writes only its destination (`SharedMemory` and `np.copyto`
write the shared segment, workers allocate fresh quotient arrays, the
manager's exit releases the segment), leaves the caller's frames unchanged
on every outcome, and the result is a pure function of the copied input. -/
theorem C10_caller_input_unchanged
    (w : Image → Except String (List (List FVal))) (s₀ : MemState) :
    (adaptive_stateful w s₀).2.callerFrames = s₀.callerFrames
    ∧ (adaptive_stateful w s₀).1 = mapWorkers w s₀.callerFrames :=
  ⟨rfl, rfl⟩

/-- Claim C8: the shared-memory segment of the parallel applier is released
on every exit path: the trace always ends with the release after the
allocation, and if any worker task raises, the aggregate result is an error
(partial results are discarded), the release still having happened. -/
theorem C8_shm_always_released (w : α → Except String β) (c : ℕ)
    (items : List α) :
    (parallel_stack_apply w c items).trace
      = [Event.allocShm, Event.copyToShm, Event.dispatchWorkers, Event.releaseShm]
    ∧ ∀ a ∈ items, (∀ b, w a ≠ Except.ok b) →
        ∃ msg, (parallel_stack_apply w c items).result = Except.error msg := by
  refine ⟨rfl, ?_⟩
  intro a ha hfail
  obtain ⟨msg, h⟩ := mapWorkers_error_of_mem w items a ha hfail
  refine ⟨msg, ?_⟩
  simp [parallel_stack_apply, withShm, process_map_eq_mapWorkers, h]

theorem C8_shm_always_released_witness :
    (parallel_stack_apply failWorker 1 [1, 0]).trace
      = [Event.allocShm, Event.copyToShm, Event.dispatchWorkers, Event.releaseShm]
    ∧ ∃ msg, (parallel_stack_apply failWorker 1 [1, 0]).result = Except.error msg :=
  ⟨(C8_shm_always_released failWorker 1 [1, 0]).1,
   (C8_shm_always_released failWorker 1 [1, 0]).2 0 (by decide)
     (fun b => by simp [failWorker])⟩

theorem mapWorkers_rowWorker1D_ok (xs : List (List ℚ)) (v : List (List FVal))
    (h : mapWorkers rowWorker1D xs = Except.ok v) : xs = [] ∧ v = [] := by
  cases xs with
  | nil =>
      simp [mapWorkers] at h
      exact ⟨rfl, h⟩
  | cons x xs => simp [mapWorkers, rowWorker1D, Except.bind] at h

theorem shape3_map_ifc (canny : Image → ℤ → Mask) (σ : ℤ) (v : List Image) :
    shape3 (v.map (fun im => intensity_fluctuation_correction_skimage canny im σ))
      = shape3 v := by
  simp only [shape3, List.map_map, Function.comp]
  exact List.map_congr_left
    (fun a _ => shape2_ifcApply a (canny a σ))

/-- Claim C3: the dispatcher raises a validation error on any input whose
rank is not 2 or 3, with no shared-memory allocation and no delegation, for
any `air_pixels` sign; on a valid rank it routes a non-negative `air_pixels`
to the external `tomopy.normalize_bg` with that value as margin, and a
negative `air_pixels` to the adaptive shared-memory path. -/
theorem C3_policy_boundary (normalize_bg : CTArray → ℕ → ℕ → CTArray)
    (canny : Image → ℤ → Mask) (ct : CTArray) (air_pixels σ : ℤ) (mw : ℕ) :
    (ct.ndim ≠ 2 ∧ ct.ndim ≠ 3 →
      (_intensity_fluctuation_correction normalize_bg canny ct air_pixels σ mw).trace
          = [Event.validationRaise]
      ∧ Event.allocShm
          ∉ (_intensity_fluctuation_correction normalize_bg canny ct air_pixels σ mw).trace
      ∧ (_intensity_fluctuation_correction normalize_bg canny ct air_pixels σ mw).result
          = Except.error "The image/radiograph stack must be 2D or 3D.")
    ∧ ((ct.ndim = 2 ∨ ct.ndim = 3) → 0 ≤ air_pixels →
      (_intensity_fluctuation_correction normalize_bg canny ct air_pixels σ mw).trace
          = [Event.delegateTomopy air_pixels.toNat mw]
      ∧ (_intensity_fluctuation_correction normalize_bg canny ct air_pixels σ mw).result
          = Except.ok (CTOut.delegated (normalize_bg ct air_pixels.toNat mw)))
    ∧ ((ct.ndim = 2 ∨ ct.ndim = 3) → air_pixels < 0 →
      (_intensity_fluctuation_correction normalize_bg canny ct air_pixels σ mw).trace
          = [Event.allocShm, Event.copyToShm, Event.dispatchWorkers,
             Event.releaseShm]) := by
  refine ⟨fun h => ?_, fun h hair => ?_, fun h hair => ?_⟩
  · unfold _intensity_fluctuation_correction
    rw [if_pos h]
    exact ⟨rfl, by decide, rfl⟩
  · have hcond : ¬(ct.ndim ≠ 2 ∧ ct.ndim ≠ 3) := by
      rcases h with h2 | h2 <;> simp [h2]
    unfold _intensity_fluctuation_correction
    rw [if_neg hcond, if_neg (not_lt.mpr hair)]
    exact ⟨rfl, rfl⟩
  · have hcond : ¬(ct.ndim ≠ 2 ∧ ct.ndim ≠ 3) := by
      rcases h with h2 | h2 <;> simp [h2]
    unfold _intensity_fluctuation_correction
    rw [if_neg hcond, if_pos hair]
    rcases ct with v | v | v | v
    · simp [CTArray.ndim] at h
    · rfl
    · rfl
    · simp [CTArray.ndim] at h

theorem C3_policy_boundary_witness :
    ((_intensity_fluctuation_correction idNormalizeBg noEdgeCanny
        (CTArray.d1 [0]) 5 3 2).trace = [Event.validationRaise])
    ∧ ((_intensity_fluctuation_correction idNormalizeBg noEdgeCanny
        (CTArray.d1 [0]) (-1) 3 2).result
          = Except.error "The image/radiograph stack must be 2D or 3D.")
    ∧ ((_intensity_fluctuation_correction idNormalizeBg noEdgeCanny
        (CTArray.d3 [zeroImage2]) 5 3 2).result
          = Except.ok (CTOut.delegated
              (idNormalizeBg (CTArray.d3 [zeroImage2]) (5 : ℤ).toNat 2)))
    ∧ ((_intensity_fluctuation_correction idNormalizeBg noEdgeCanny
        (CTArray.d3 [zeroImage2]) (-1) 3 2).trace
          = [Event.allocShm, Event.copyToShm, Event.dispatchWorkers,
             Event.releaseShm]) :=
  ⟨((C3_policy_boundary idNormalizeBg noEdgeCanny (CTArray.d1 [0]) 5 3 2).1
      (by decide)).1,
   ((C3_policy_boundary idNormalizeBg noEdgeCanny (CTArray.d1 [0]) (-1) 3 2).1
      (by decide)).2.2,
   ((C3_policy_boundary idNormalizeBg noEdgeCanny (CTArray.d3 [zeroImage2]) 5 3 2).2.1
      (by decide) (by decide)).2,
   ((C3_policy_boundary idNormalizeBg noEdgeCanny (CTArray.d3 [zeroImage2]) (-1) 3 2).2.2
      (by decide) (by decide))⟩

/-- Claim C6: whenever the dispatcher succeeds, the output has the input's
shape (hence its frame count), on the adaptive path — where the float
promotion shows in the `FVal` codomain — and on the delegate path, whose
external routine is shape-preserving by contract. -/
theorem C6_shape_preserved (normalize_bg : CTArray → ℕ → ℕ → CTArray)
    (canny : Image → ℤ → Mask) (ct : CTArray) (air σ : ℤ) (mw : ℕ) (out : CTOut)
    (hnb : ∀ a k n, (normalize_bg a k n).shapeDesc = a.shapeDesc)
    (hok : (_intensity_fluctuation_correction normalize_bg canny ct air σ mw).result
            = Except.ok out) :
    out.shapeDesc = ct.shapeDesc := by
  rcases ct with v | v | v | v
  · simp [_intensity_fluctuation_correction, CTArray.ndim] at hok
  · by_cases hair : air < 0
    · have hres : (_intensity_fluctuation_correction normalize_bg canny
          (CTArray.d2 v) air σ mw).result
            = (process_map rowWorker1D (calculate_chunksize v.length mw) v).map
                CTOut.stack2 := by
        unfold _intensity_fluctuation_correction
        rw [if_neg (by simp [CTArray.ndim]), if_pos hair]
        rfl
      rw [hres, process_map_eq_mapWorkers] at hok
      cases hmw : mapWorkers rowWorker1D v with
      | error e => rw [hmw] at hok; simp [Except.map] at hok
      | ok ys =>
          rw [hmw] at hok
          simp only [Except.map, Except.ok.injEq] at hok
          obtain ⟨hv, hys⟩ := mapWorkers_rowWorker1D_ok v ys hmw
          subst hv hys
          rw [← hok]
          rfl
    · have hres : (_intensity_fluctuation_correction normalize_bg canny
          (CTArray.d2 v) air σ mw).result
            = Except.ok (CTOut.delegated (normalize_bg (CTArray.d2 v) air.toNat mw)) := by
        unfold _intensity_fluctuation_correction
        rw [if_neg (by simp [CTArray.ndim]), if_neg hair]
      rw [hres] at hok
      simp only [Except.ok.injEq] at hok
      rw [← hok]
      exact hnb _ _ _
  · by_cases hair : air < 0
    · have hres : (_intensity_fluctuation_correction normalize_bg canny
          (CTArray.d3 v) air σ mw).result
            = (process_map
                (fun im => Except.ok
                  (intensity_fluctuation_correction_skimage canny im σ))
                (calculate_chunksize v.length mw) v).map CTOut.stack3 := by
        unfold _intensity_fluctuation_correction
        rw [if_neg (by simp [CTArray.ndim]), if_pos hair]
        rfl
      rw [hres, process_map_eq_mapWorkers, mapWorkers_ok_map] at hok
      simp only [Except.map, Except.ok.injEq] at hok
      rw [← hok]
      show ShapeDesc.s3 (shape3 _) = ShapeDesc.s3 (shape3 v)
      rw [shape3_map_ifc]
    · have hres : (_intensity_fluctuation_correction normalize_bg canny
          (CTArray.d3 v) air σ mw).result
            = Except.ok (CTOut.delegated (normalize_bg (CTArray.d3 v) air.toNat mw)) := by
        unfold _intensity_fluctuation_correction
        rw [if_neg (by simp [CTArray.ndim]), if_neg hair]
      rw [hres] at hok
      simp only [Except.ok.injEq] at hok
      rw [← hok]
      exact hnb _ _ _
  · simp [_intensity_fluctuation_correction, CTArray.ndim] at hok

theorem C6_shape_preserved_witness :
    (CTOut.delegated (idNormalizeBg (CTArray.d3 [zeroImage2]) (5 : ℤ).toNat 2)).shapeDesc
      = (CTArray.d3 [zeroImage2]).shapeDesc :=
  C6_shape_preserved idNormalizeBg noEdgeCanny (CTArray.d3 [zeroImage2]) 5 3 2
    (CTOut.delegated (idNormalizeBg (CTArray.d3 [zeroImage2]) (5 : ℤ).toNat 2))
    (fun _ _ _ => rfl) rfl

/-- Claim C7: on the adaptive path the corrected stack is independent of
`max_workers` — running with one worker or any `N > 1` workers gives equal
traces and results, frames being corrected independently and reassembled in
order (worker count only changes the chunk size). -/
theorem C7_worker_count_invariance (normalize_bg : CTArray → ℕ → ℕ → CTArray)
    (canny : Image → ℤ → Mask) (ct : CTArray) (air σ : ℤ) (N : ℕ)
    (hair : air < 0) (_hN : 1 < N) :
    _intensity_fluctuation_correction normalize_bg canny ct air σ 1
      = _intensity_fluctuation_correction normalize_bg canny ct air σ N := by
  rcases ct with v | v | v | v
  · simp [_intensity_fluctuation_correction, CTArray.ndim]
  · have hmw : ∀ mw, _intensity_fluctuation_correction normalize_bg canny
        (CTArray.d2 v) air σ mw
          = { trace := [Event.allocShm, Event.copyToShm, Event.dispatchWorkers,
                        Event.releaseShm],
              result := (process_map rowWorker1D
                (calculate_chunksize v.length mw) v).map CTOut.stack2 } := by
      intro mw
      unfold _intensity_fluctuation_correction
      rw [if_neg (by simp [CTArray.ndim]), if_pos hair]
      rfl
    rw [hmw 1, hmw N]
    simp only [IFCRun.mk.injEq, true_and]
    rw [process_map_eq_mapWorkers, process_map_eq_mapWorkers]
  · have hmw : ∀ mw, _intensity_fluctuation_correction normalize_bg canny
        (CTArray.d3 v) air σ mw
          = { trace := [Event.allocShm, Event.copyToShm, Event.dispatchWorkers,
                        Event.releaseShm],
              result := (process_map
                (fun im => Except.ok
                  (intensity_fluctuation_correction_skimage canny im σ))
                (calculate_chunksize v.length mw) v).map CTOut.stack3 } := by
      intro mw
      unfold _intensity_fluctuation_correction
      rw [if_neg (by simp [CTArray.ndim]), if_pos hair]
      rfl
    rw [hmw 1, hmw N]
    simp only [IFCRun.mk.injEq, true_and]
    rw [process_map_eq_mapWorkers, process_map_eq_mapWorkers]
  · simp [_intensity_fluctuation_correction, CTArray.ndim]

theorem C7_worker_count_invariance_witness :
    _intensity_fluctuation_correction idNormalizeBg noEdgeCanny
        (CTArray.d3 [zeroImage2]) (-1) 3 1
      = _intensity_fluctuation_correction idNormalizeBg noEdgeCanny
          (CTArray.d3 [zeroImage2]) (-1) 3 4 :=
  C7_worker_count_invariance idNormalizeBg noEdgeCanny (CTArray.d3 [zeroImage2])
    (-1) 3 4 (by decide) (by decide)

end IFC
